import Mathlib

/-!
Shallow embedding of the daemon lifecycle / self-update manager
(`client/goma_ctl.py`) and proofs about its specification.

Python strings are modelled as `List Char`; Python `dict`s with string
keys as association lists in insertion order, updated with the
position-preserving `dictInsert` that mirrors Python assignment
semantics.
-/

abbrev PyStr := List Char

/-- Characters treated as whitespace by Python `str.strip()` (ASCII part). -/
def isPySpace (c : Char) : Bool :=
  c = ' ' || c = '\t' || c = '\n' || c = '\r' ||
  c = '\x0b' || c = '\x0c'

/-- Characters on which Python `str.splitlines()` breaks lines. -/
def isLineBreak (c : Char) : Bool :=
  c = '\n' || c = '\r' ||
  c = '\x0b' || c = '\x0c' ||
  c = '\x1c' || c = '\x1d' ||
  c = '\x1e' || c = '\u0085' ||
  c = '\u2028' || c = '\u2029'

/-- Python `str.strip()`: drop whitespace from both ends. -/
def pyStrip (s : PyStr) : PyStr :=
  ((s.dropWhile isPySpace).reverse.dropWhile isPySpace).reverse

/-- Helper for `splitChar`: current (reversed-order-free) chunk and the
remaining chunks. -/
def splitCharAux (sep : Char) : PyStr → PyStr × List PyStr
  | [] => ([], [])
  | c :: cs =>
    let r := splitCharAux sep cs
    if c = sep then ([], r.1 :: r.2) else (c :: r.1, r.2)

/-- Python `s.split(sep)` for a single-character separator. -/
def splitChar (sep : Char) (s : PyStr) : List PyStr :=
  (splitCharAux sep s).1 :: (splitCharAux sep s).2

/-- Python `s.split(sep, 1)` for a single-character separator: `some (a, b)`
when `sep` occurs (split at the first occurrence), `none` otherwise. -/
def splitOnce (sep : Char) : PyStr → Option (PyStr × PyStr)
  | [] => none
  | c :: cs =>
    if c = sep then some ([], cs)
    else (splitOnce sep cs).map (fun p => (c :: p.1, p.2))

/-- Prepend a character to the first line of a line list. -/
def consLine (c : Char) : List PyStr → List PyStr
  | [] => [[c]]
  | l :: ls => (c :: l) :: ls

/-- One right-to-left step of `str.splitlines()`: the flag records
whether the character just to the right is `'\n'`, so that `"\r\n"`
counts as a single break. -/
def slStep (c : Char) (acc : List PyStr × Bool) : List PyStr × Bool :=
  (if c = '\r' then (if acc.2 then acc.1 else [] :: acc.1)
   else if isLineBreak c then [] :: acc.1
   else consLine c acc.1,
   c = '\n')

/-- Python `str.splitlines()` (without kept line ends); a trailing line
break does not produce an empty final line, and `"\r\n"` counts as one
break. -/
def pySplitlines (s : PyStr) : List PyStr := (s.foldr slStep ([], false)).1

/-- Decimal digits of a natural number, via the standard library printer. -/
def natStr (n : Nat) : PyStr := (Nat.repr n).data

/-- Python `str(i)` on an integer. -/
def pyStrInt (i : Int) : PyStr :=
  match i with
  | Int.ofNat n => natStr n
  | Int.negSucc n => '-' :: natStr (n + 1)

/-- Value of a nonempty all-digit string, `none` otherwise. -/
def digitsVal : PyStr → Option Nat
  | [] => none
  | [c] => if c.isDigit then some (c.toNat - '0'.toNat) else none
  | c :: cs =>
    if c.isDigit then
      (digitsVal cs).map (fun m => (c.toNat - '0'.toNat) * 10 ^ cs.length + m)
    else none

/-- Python `int(s)` on a decimal string: strips whitespace, allows one
leading sign; `none` models the `ValueError` path. -/
def pyInt (s : PyStr) : Option Int :=
  match pyStrip s with
  | '-' :: ds => (digitsVal ds).map (fun n => -(n : Int))
  | '+' :: ds => (digitsVal ds).map (fun n => (n : Int))
  | ds => (digitsVal ds).map (fun n => (n : Int))

/-! ## Version decision logic (`_IsBadVersion`, `_ShouldUpdate`) -/

/-- `goma_ctl._IsBadVersion`: split `bad_vers` on `|` and return true iff
`str(cur_ver)` equals one of the tokens. -/
def IsBadVersion (curVer : Int) (badVers : PyStr) : Bool :=
  (splitChar '|' badVers).any (fun ver => pyStrInt curVer = ver)

/-- `goma_ctl._ShouldUpdate`: update when moving forward; refuse when
equal; moving backward only from a denylisted current version. -/
def ShouldUpdate (curVer nextVer : Int) (badVers : PyStr) : Bool :=
  if curVer < nextVer then true
  else if curVer = nextVer then false
  else IsBadVersion curVer badVers

/-! ## Manifest store -/

/-- Python dicts with string keys, in insertion order. -/
abbrev Dict := List (PyStr × PyStr)

/-- Python `d[k] = v`: update in place when the key is present (keeping
its position), append otherwise. -/
def dictInsert (k v : PyStr) : Dict → Dict
  | [] => [(k, v)]
  | (k2, v2) :: rest =>
    if k2 = k then (k2, v) :: rest else (k2, v2) :: dictInsert k v rest

/-- Python `d.get(k)` / `k in d`. -/
def dictGet (k : PyStr) : Dict → Option PyStr
  | [] => none
  | (k2, v2) :: rest => if k2 = k then some v2 else dictGet k rest

/-- One line of `goma_ctl._ParseManifestContents`: strip the line, split
on the first `=`; a line without `=` is ignored; key and value are
stripped again. -/
def parseStep (out : Dict) (line : PyStr) : Dict :=
  match splitOnce '=' (pyStrip line) with
  | some p => dictInsert (pyStrip p.1) (pyStrip p.2) out
  | none => out

/-- `goma_ctl._ParseManifestContents`. -/
def ParseManifestContents (manifest : PyStr) : Dict :=
  (pySplitlines manifest).foldl parseStep []

/-- File contents produced by `GomaEnv.WriteManifest`: one `KEY=VALUE`
line per entry, in dict order. -/
def manifestContents (manifest : Dict) : PyStr :=
  (manifest.map (fun p => p.1 ++ '=' :: p.2 ++ ['\n'])).flatten

/-- State of the `MANIFEST` file: permission bits and contents. -/
structure ManifestFile where
  mode : Nat
  contents : PyStr
  deriving DecidableEq

/-- `GomaEnv.WriteManifest`: if the file exists it is first chmod-ed to
`0o644`, then overwritten; a fresh file is created with the
umask-dependent default mode `createMode`. -/
def WriteManifest (manifest : Dict) (old : Option ManifestFile)
    (createMode : Nat) : ManifestFile :=
  { mode := match old with
            | some _ => 0o644
            | none => createMode
    contents := manifestContents manifest }

/-- `GomaEnv.ReadManifest`: empty dict when the `MANIFEST` file does not
exist, otherwise parse its contents. -/
def ReadManifest (file : Option PyStr) : Dict :=
  match file with
  | none => []
  | some contents => ParseManifestContents contents

/-- `GomaEnv.IsValidManifest`: both `PLATFORM` and `VERSION` keys present. -/
def IsValidManifest (file : Option PyStr) : Bool :=
  let contents := ReadManifest file
  (dictGet "PLATFORM".data contents).isSome &&
  (dictGet "VERSION".data contents).isSome

/-- `GomaDriver._DownloadedVersion`: `int` of the staged manifest's
`VERSION`, with `KeyError` / `ValueError` giving `0`. -/
def DownloadedVersion (staged : Option PyStr) : Int :=
  match dictGet "VERSION".data (ReadManifest staged) with
  | none => 0
  | some v =>
    match pyInt v with
    | none => 0
    | some n => n

/-! ## Checksum auditor -/

/-- Suffix of `s` starting at its last `.`, if any. -/
def extFromLastDot : PyStr → Option PyStr
  | [] => none
  | c :: cs =>
    match extFromLastDot cs with
    | some e => some e
    | none => if c = '.' then some (c :: cs) else none

/-- Python `os.path.splitext(filename)[1]` (POSIX): the extension starts
at the last `.` of the basename, except that leading dots of the
basename never start an extension. -/
def splitextExt (filename : PyStr) : PyStr :=
  let base := (splitChar '/' filename).getLastD []
  match extFromLastDot (base.dropWhile (fun c => c = '.')) with
  | some e => e
  | none => []

/-- Read-only view of the installed tree as the audit sees it:
`checksumFile` is the parsed `sha256.json` (`none` when the file is
absent), and `digest f` is the SHA-256 hex digest `CalculateChecksum`
computes for `f` (`none` when opening `f` raises `IOError`). -/
structure AuditEnv where
  checksumFile : Option Dict
  digest : PyStr → Option PyStr

/-- `GomaEnv.LoadChecksum`: empty dict when `sha256.json` does not
exist, otherwise its parsed JSON object. -/
def LoadChecksum (e : AuditEnv) : Dict :=
  e.checksumFile.getD []

/-- Outcome of `GomaDriver._Audit`: either every checked file verified,
or the first mismatch with the declared and the recomputed digest. -/
inductive AuditResult where
  | verified
  | mismatch (filename expected computed : PyStr)
  deriving DecidableEq

/-- The `for filename, checksum in cksums.items()` loop of
`GomaDriver._Audit`: `.pdb` entries are skipped, the first differing
digest stops the loop, a missing file propagates `IOError`. -/
def auditLoop (digest : PyStr → Option PyStr) : Dict → Except Unit AuditResult
  | [] => .ok .verified
  | (f, cksum) :: rest =>
    if splitextExt f = ".pdb".data then auditLoop digest rest
    else
      match digest f with
      | none => .error ()
      | some d =>
        if cksum ≠ d then .ok (.mismatch f cksum d)
        else auditLoop digest rest

/-- `GomaDriver._Audit`. The source only reads (`LoadChecksum`,
`CalculateChecksum`), so the environment comes back unchanged. -/
def Audit (e : AuditEnv) : Except Unit AuditResult × AuditEnv :=
  let cksums := LoadChecksum e
  if cksums = [] then (.ok .verified, e)
  else (auditLoop e.digest cksums, e)

/-! ## Directory ownership check -/

/-- The fields of an `os.lstat` result the check looks at. -/
structure DirStat where
  uid : Nat
  mode : Nat
  deriving DecidableEq

/-- `GomaEnvPosix.EnsureDirectoryOwnedByUser`: `lstat` the directory (a
failure there propagates); a foreign owner gives `false` untouched;
otherwise `chmod 0o700`, with an `OSError` caught and turned into
`false`. -/
def EnsureDirectoryOwnedByUser (st : DirStat) (lstatFails : Bool)
    (euid : Nat) (chmodFails : Bool) : Except Unit (Bool × DirStat) :=
  if lstatFails then .error ()
  else if st.uid ≠ euid then .ok (false, st)
  else if chmodFails then .ok (false, st)
  else .ok (true, { st with mode := 0o700 })

/-! ## Shutdown cooldown wait -/

/-- `goma_ctl._MAX_COOLDOWN_WAIT`. -/
def MAX_COOLDOWN_WAIT : Nat := 10

/-- `goma_ctl._COOLDOWN_SLEEP`. -/
def COOLDOWN_SLEEP : Nat := 1

/-- The `for cnt in range(_MAX_COOLDOWN_WAIT)` loop of
`GomaDriver._WaitCooldown`: `obs i` is the result of the `i`-th
`CompilerProxyRunning()` call; returns the final value together with the
seconds slept. -/
def waitCooldownLoop (obs : Nat → Bool) (i : Nat) : Nat → Bool × Nat
  | 0 => (false, 0)
  | n + 1 =>
    if !(obs i) then (true, 0)
    else
      let r := waitCooldownLoop obs (i + 1) n
      (r.1, r.2 + COOLDOWN_SLEEP)

/-- `GomaDriver._WaitCooldown`: immediate `true` when the daemon is
already gone, else poll up to `_MAX_COOLDOWN_WAIT` times with a
1-second sleep after each positive poll. -/
def WaitCooldown (obs : Nat → Bool) : Bool × Nat :=
  if !(obs 0) then (true, 0)
  else waitCooldownLoop obs 1 MAX_COOLDOWN_WAIT

/-! ## Backup & rollback -/

/-- The `st_size` / `st_mode` / `st_mtime` triple `RollbackUpdate`
compares. -/
structure FileStat where
  size : Nat
  mode : Nat
  mtime : Nat
  deriving DecidableEq

/-- A filesystem object: regular file (with contents) or directory. -/
inductive FsEntry where
  | file (st : FileStat) (content : PyStr)
  | dir (st : FileStat)
  deriving DecidableEq

/-- Filesystem as a finite map from full path to entry. -/
abbrev Fs := List (PyStr × FsEntry)

def fsGet (p : PyStr) : Fs → Option FsEntry
  | [] => none
  | (q, e) :: rest => if q = p then some e else fsGet p rest

def fsSet (p : PyStr) (e : FsEntry) : Fs → Fs
  | [] => [(p, e)]
  | (q, e2) :: rest =>
    if q = p then (q, e) :: rest else (q, e2) :: fsSet p e rest

def statOfEntry : FsEntry → FileStat
  | .file st _ => st
  | .dir st => st

/-- Python `str.replace` for a nonempty pattern, driven by a fuel that
the wrapper sets to the string length (each step consumes at least one
character, so the fuel never runs out). -/
def replaceFuel (pat repl : PyStr) : Nat → PyStr → PyStr
  | 0, s => s
  | _ + 1, [] => []
  | fuel + 1, c :: cs =>
    if List.isPrefixOf pat (c :: cs) then
      repl ++ replaceFuel pat repl fuel (List.drop pat.length (c :: cs))
    else c :: replaceFuel pat repl fuel cs

/-- Python `s.replace(pat, repl)`; the empty pattern is never passed by
the modelled code. -/
def pyReplace (s pat repl : PyStr) : PyStr :=
  if pat = [] then s else replaceFuel pat repl s.length s

/-- Python `os.path.join(a, b)` (POSIX) for the two-argument calls the
rollback code makes. -/
def pyPathJoin (a b : PyStr) : PyStr :=
  if b.head? = some '/' then b
  else if a = [] then b
  else if a.getLast? = some '/' then a ++ b
  else a ++ '/' :: b

/-- One iteration of the `for filename in entry[1]` loop of
`GomaEnv.RollbackUpdate`: stat the backup copy (an `OSError` is warned
about and skipped), skip when size/mode/mtime are unchanged, restore
files with `shutil.copy2`, recreate directories missing from the live
tree (`MakeDirectory` uses mode `0o700`; size and mtime of the fresh
directory are modelled as `0`), and raise on a file/directory type
mismatch. -/
def rollbackName (backupDirPath entryDir : PyStr) (fs : Fs) (name : PyStr) :
    Except Unit Fs :=
  let fromName := pyPathJoin backupDirPath name
  let toName := pyPathJoin entryDir name
  match fsGet fromName fs with
  | none => .ok fs
  | some fromEntry =>
    let toEntry := fsGet toName fs
    if toEntry.any (fun te => statOfEntry te = statOfEntry fromEntry) then
      .ok fs
    else
      match fromEntry, toEntry with
      | .file _ _, some (.file _ _) => .ok (fsSet toName fromEntry fs)
      | .file _ _, none => .ok (fsSet toName fromEntry fs)
      | .dir _, some (.dir _) => .ok fs
      | .dir _, none => .ok (fsSet toName (.dir ⟨0, 0o700, 0⟩) fs)
      | _, _ => .error ()

/-- The `for filename in entry[1]` loop, threading the filesystem
through so that a raise keeps the mutations already performed (a Python
exception does not undo them). -/
def rollbackNames (backupDirPath entryDir : PyStr) :
    List PyStr → Fs → Except Unit Unit × Fs
  | [], fs => (.ok (), fs)
  | name :: rest, fs =>
    match rollbackName backupDirPath entryDir fs name with
    | .error u => (.error u, fs)
    | .ok fs2 => rollbackNames backupDirPath entryDir rest fs2

/-- The `for entry in self._backup` loop over the recorded
`(path, names)` pairs. -/
def rollbackEntries (dir backupDir : PyStr) :
    List (PyStr × List PyStr) → Fs → Except Unit Unit × Fs
  | [], fs => (.ok (), fs)
  | e :: rest, fs =>
    let backupDirPath := pyReplace e.1 dir (pyPathJoin dir backupDir)
    match rollbackNames backupDirPath e.1 e.2 fs with
    | (.error u, fs2) => (.error u, fs2)
    | (.ok _, fs2) => rollbackEntries dir backupDir rest fs2

/-- The manager state `RollbackUpdate` touches: the install root
`self._dir`, the recorded backup list `self._backup` (`none` models the
`None` set in `__init__`, before any `BackupCurrentPackage`), and the
filesystem. -/
structure GomaEnvState where
  dir : PyStr
  backup : Option (List (PyStr × List PyStr))
  fs : Fs
  deriving DecidableEq

/-- `GomaEnv.RollbackUpdate`: raise when `self._backup` is falsy (`None`
or the empty list), otherwise restore every recorded entry; the second
component is the state as the call leaves it, raise or not. -/
def RollbackUpdate (st : GomaEnvState) (backupDir : PyStr) :
    Except Unit Unit × GomaEnvState :=
  match st.backup with
  | none => (.error (), st)
  | some [] => (.error (), st)
  | some entries =>
    let r := rollbackEntries st.dir backupDir entries st.fs
    (r.1, { st with fs := r.2 })

/-! ## Update orchestration -/

/-- `GomaDriver._GetLatestVersion` on the downloaded `MANIFEST` body:
requires a `VERSION` key (else `Error`) whose value parses as an int
(else the uncaught `ValueError` of `int()`); `bad_version` defaults to
the empty string. -/
def GetLatestVersion (remoteContents : PyStr) : Except Unit (Int × PyStr) :=
  let manifest := ParseManifestContents remoteContents
  match dictGet "VERSION".data manifest with
  | none => .error ()
  | some v =>
    match pyInt v with
    | none => .error ()
    | some n => .ok (n, (dictGet "bad_version".data manifest).getD [])

/-- Environment of one `update` run: the server's `MANIFEST` body
(assumed stable for the duration of the run), the staged `MANIFEST`
contents before the run (`none` when absent), the detected platform
string, and the outcomes of the environment operations the run may
invoke. -/
structure UpdateEnv where
  remoteContents : PyStr
  staged : Option PyStr
  platform : PyStr
  pkgMagicOk : Bool
  extractOk : Bool
  auditOk : Bool
  installOk : Bool

/-- `GomaDriver._ValidFiles` on `['MANIFEST', package]`: the `MANIFEST`
magic check is `IsValidManifest`, the package file check is its magic
bytes. -/
def ValidFiles (env : UpdateEnv) : Bool :=
  IsValidManifest env.staged && env.pkgMagicOk

/-- `GomaDriver._Pull`: returns the staged `MANIFEST` contents after the
pull.  On the download path the fetched manifest is re-read, stamped
with `PLATFORM`, and rewritten; on the skip path a valid staged
manifest is rewritten unchanged (timestamp refresh). -/
def Pull (curVer : Int) (env : UpdateEnv) : Except Unit (Option PyStr) :=
  match GetLatestVersion env.remoteContents with
  | .error e => .error e
  | .ok (latest, bad) =>
    if (ShouldUpdate (DownloadedVersion env.staged) latest bad
        || !ValidFiles env)
        && ShouldUpdate curVer latest bad then
      .ok (some (manifestContents
        (dictInsert "PLATFORM".data env.platform
          (ParseManifestContents env.remoteContents))))
    else if IsValidManifest env.staged then
      .ok (some (manifestContents (ReadManifest env.staged)))
    else .ok env.staged

/-- `GomaDriver._UpdatePackage` on the staged manifest after the pull:
raise on a broken manifest, an `int()` failure, a failed extract, a
failed audit of the scratch tree, or a failed install; on success the
installed version becomes the staged manifest's `VERSION`. -/
def UpdatePackage (staged : Option PyStr) (env : UpdateEnv) :
    Except Unit Int :=
  match dictGet "VERSION".data (ReadManifest staged) with
  | none => .error ()
  | some v =>
    match pyInt v with
    | none => .error ()
    | some latestVersion =>
      if !env.extractOk then .error ()
      else if !env.auditOk then .error ()
      else if !env.installOk then .error ()
      else .ok latestVersion

/-- `GomaDriver._Update`: `some v` when the run installs version `v`;
`none` when the guard refuses or any step fails (the rollback path
leaves the installed version unchanged). -/
def UpdateStep (curVer : Int) (env : UpdateEnv) : Option Int :=
  match GetLatestVersion env.remoteContents with
  | .error _ => none
  | .ok (latest, bad) =>
    if ShouldUpdate curVer latest bad then
      match Pull curVer env with
      | .error _ => none
      | .ok staged2 =>
        match UpdatePackage staged2 env with
        | .error _ => none
        | .ok v => some v
    else none

/-! ## Theorems -/

/-- C1: `_ShouldUpdate(cur, next, b)` is true when `cur < next`, false
when `cur == next`, and for `cur > next` it equals
`_IsBadVersion(cur, b)`; the five concrete examples hold. -/
theorem shouldUpdate_cases_and_examples :
    (∀ (cur next : Int) (b : PyStr),
      (cur < next → ShouldUpdate cur next b = true) ∧
      (cur = next → ShouldUpdate cur next b = false) ∧
      (next < cur → ShouldUpdate cur next b = IsBadVersion cur b)) ∧
    ShouldUpdate 1 2 "".data = true ∧
    ShouldUpdate 2 1 "".data = false ∧
    ShouldUpdate 1 1 "1".data = false ∧
    ShouldUpdate 67 66 "67".data = true ∧
    ShouldUpdate 66 68 "67".data = true := by
  refine ⟨fun cur next b => ⟨?_, ?_, ?_⟩,
    by decide, by decide, by decide, by decide, by decide⟩
  · intro h
    simp [ShouldUpdate, h]
  · intro h
    simp [ShouldUpdate, h]
  · intro h
    have h1 : ¬ cur < next := by omega
    have h2 : ¬ cur = next := by omega
    simp [ShouldUpdate, h1, h2]

theorem shouldUpdate_cases_witness :
    ShouldUpdate 67 66 "67".data = IsBadVersion 67 "67".data :=
  (shouldUpdate_cases_and_examples.1 67 66 "67".data).2.2 (by decide)

/-- C2: `_IsBadVersion(cur, b)` is true iff the decimal string form of
`cur` equals one of the `|`-separated tokens of `b`, compared as
strings; the two concrete examples hold. -/
theorem isBadVersion_iff_token_and_examples :
    (∀ (cur : Int) (b : PyStr),
      IsBadVersion cur b = true ↔ ∃ t ∈ splitChar '|' b, pyStrInt cur = t) ∧
    IsBadVersion 67 "65|67|69".data = true ∧
    IsBadVersion 670 "67".data = false := by
  refine ⟨fun cur b => ?_, by decide, by decide⟩
  simp [IsBadVersion, List.any_eq_true]

/-- C4: `RollbackUpdate` with no recorded backup (`self._backup` still
`None` from `__init__`, or an empty list) raises immediately and
returns the state — filesystem included — unchanged. -/
theorem rollbackUpdate_without_backup :
    ∀ (st : GomaEnvState) (backupDir : PyStr),
      st.backup = none ∨ st.backup = some [] →
      RollbackUpdate st backupDir = (.error (), st) := by
  intro st backupDir h
  rcases h with h | h <;> simp [RollbackUpdate, h]

theorem rollbackUpdate_without_backup_witness :
    RollbackUpdate ⟨"/goma".data, none, [("/goma/MANIFEST".data,
      .file ⟨9, 0o644, 5⟩ "VERSION=1".data)]⟩ "backup".data =
    (.error (), ⟨"/goma".data, none, [("/goma/MANIFEST".data,
      .file ⟨9, 0o644, 5⟩ "VERSION=1".data)]⟩) :=
  rollbackUpdate_without_backup _ _ (Or.inl rfl)

/-- C6: `EnsureDirectoryOwnedByUser` propagates an `lstat` failure as an
exception; on a directory owned by someone else it returns `false`
without touching the mode; on one owned by the caller it chmods to
`0o700` and returns `true`, and a `chmod` failure is caught and turned
into `false` with the mode untouched. -/
theorem ensureDirectoryOwnedByUser_spec :
    ∀ (st : DirStat) (lstatFails : Bool) (euid : Nat) (chmodFails : Bool),
      (lstatFails = true →
        EnsureDirectoryOwnedByUser st lstatFails euid chmodFails = .error ()) ∧
      (lstatFails = false → st.uid ≠ euid →
        EnsureDirectoryOwnedByUser st lstatFails euid chmodFails =
          .ok (false, st)) ∧
      (lstatFails = false → st.uid = euid → chmodFails = false →
        EnsureDirectoryOwnedByUser st lstatFails euid chmodFails =
          .ok (true, { st with mode := 0o700 })) ∧
      (lstatFails = false → st.uid = euid → chmodFails = true →
        EnsureDirectoryOwnedByUser st lstatFails euid chmodFails =
          .ok (false, st)) := by
  intro st lstatFails euid chmodFails
  refine ⟨fun h1 => ?_, fun h1 h2 => ?_, fun h1 h2 h3 => ?_, fun h1 h2 h3 => ?_⟩
  · simp [EnsureDirectoryOwnedByUser, h1]
  · simp [EnsureDirectoryOwnedByUser, h1, h2]
  · simp [EnsureDirectoryOwnedByUser, h1, h2, h3]
  · simp [EnsureDirectoryOwnedByUser, h1, h2, h3]

theorem ensureDirectoryOwnedByUser_witness :
    EnsureDirectoryOwnedByUser ⟨1000, 0o755⟩ false 1000 false =
      .ok (true, ⟨1000, 0o700⟩) :=
  (ensureDirectoryOwnedByUser_spec ⟨1000, 0o755⟩ false 1000 false).2.2.1
    rfl rfl rfl

/-- C8 counterexample: overwriting a manifest file whose mode is
`0o600` sets the mode to `0o644` — the group/other read bits `0o044`
were absent before and are granted afterwards, so the permissions are
loosened, not tightened. -/
theorem writeManifest_not_tightening :
    (WriteManifest [] (some ⟨0o600, []⟩) 0o644).mode = 0o644 ∧
    Nat.land 0o600 0o044 = 0 ∧ Nat.land 0o644 0o044 = 0o044 := by
  decide

/-- C8 (amended): `WriteManifest` serializes deterministically — the
file contents depend only on the mapping — and before overwriting an
existing manifest file it resets that file's permissions to `0o644`
(which may loosen them). -/
theorem writeManifest_deterministic_and_chmod :
    (∀ (m : Dict) (old1 old2 : Option ManifestFile) (c1 c2 : Nat),
      (WriteManifest m old1 c1).contents = (WriteManifest m old2 c2).contents) ∧
    (∀ (m : Dict) (f : ManifestFile) (c : Nat),
      (WriteManifest m (some f) c).mode = 0o644) :=
  ⟨fun _ _ _ _ _ => rfl, fun _ _ _ => rfl⟩

/-- C10: when the `MANIFEST` file does not exist, `ReadManifest` returns
the empty mapping instead of raising, `IsValidManifest` is false, and
`_DownloadedVersion` treats the directory as version `0`. -/
theorem readManifest_missing_file :
    ReadManifest none = [] ∧ IsValidManifest none = false ∧
    DownloadedVersion none = 0 :=
  ⟨rfl, rfl, rfl⟩

lemma waitCooldownLoop_spec (obs : Nat → Bool) :
    ∀ (n i : Nat),
      ((waitCooldownLoop obs i n).1 = true ↔ ∃ j < n, obs (i + j) = false) ∧
      (waitCooldownLoop obs i n).2 ≤ n * COOLDOWN_SLEEP := by
  intro n
  induction n with
  | zero => intro i; simp [waitCooldownLoop]
  | succ n ih =>
    intro i
    by_cases h : obs i = false
    · refine ⟨?_, ?_⟩ <;> simp [waitCooldownLoop, h]
      exact ⟨0, by omega, by simpa using h⟩
    · have h2 : obs i = true := by revert h; cases obs i <;> simp
      have ih2 := ih (i + 1)
      refine ⟨?_, ?_⟩ <;> simp only [waitCooldownLoop, h2, Bool.not_true,
        Bool.false_eq_true, if_false]
      · rw [ih2.1]
        constructor
        · rintro ⟨j, hj, hobs⟩
          have he : i + 1 + j = i + (j + 1) := by omega
          exact ⟨j + 1, by omega, by rwa [he] at hobs⟩
        · rintro ⟨j, hj, hobs⟩
          match j, hobs with
          | 0, hobs => simp at hobs; rw [h2] at hobs; cases hobs
          | j + 1, hobs =>
            have he : i + (j + 1) = i + 1 + j := by omega
            exact ⟨j, by omega, by rwa [he] at hobs⟩
      · have := ih2.2
        simp [COOLDOWN_SLEEP] at this ⊢
        omega

/-- C9: `_WaitCooldown` returns `true` at once, without sleeping, when
the daemon is already stopped; otherwise it polls at most
`_MAX_COOLDOWN_WAIT` = 10 more times with 1-second sleeps; it returns
`true` iff some poll within the bound observed the daemon stopped, and
the total sleeping is bounded by 10 seconds (so it never blocks
indefinitely). -/
theorem waitCooldown_spec :
    ∀ obs : Nat → Bool,
      (obs 0 = false → WaitCooldown obs = (true, 0)) ∧
      ((WaitCooldown obs).1 = true ↔
        ∃ i ≤ MAX_COOLDOWN_WAIT, obs i = false) ∧
      (WaitCooldown obs).2 ≤ MAX_COOLDOWN_WAIT * COOLDOWN_SLEEP := by
  intro obs
  refine ⟨fun h => by simp [WaitCooldown, h], ?_, ?_⟩
  · by_cases h : obs 0 = false
    · simp [WaitCooldown, h]
      exact ⟨0, by omega, h⟩
    · have h2 : obs 0 = true := by revert h; cases obs 0 <;> simp
      simp only [WaitCooldown, h2, Bool.not_true, Bool.false_eq_true, if_false]
      rw [(waitCooldownLoop_spec obs MAX_COOLDOWN_WAIT 1).1]
      constructor
      · rintro ⟨j, hj, hobs⟩
        exact ⟨1 + j, by simp [MAX_COOLDOWN_WAIT] at hj ⊢; omega, hobs⟩
      · rintro ⟨i, hi, hobs⟩
        match i, hobs with
        | 0, hobs => rw [h2] at hobs; cases hobs
        | i + 1, hobs =>
          exact ⟨i, by simp [MAX_COOLDOWN_WAIT] at hi ⊢; omega,
            by simpa [Nat.add_comm] using hobs⟩
  · by_cases h : obs 0 = false
    · simp [WaitCooldown, h]
    · have h2 : obs 0 = true := by revert h; cases obs 0 <;> simp
      simp only [WaitCooldown, h2, Bool.not_true, Bool.false_eq_true, if_false]
      exact (waitCooldownLoop_spec obs MAX_COOLDOWN_WAIT 1).2

theorem waitCooldown_witness :
    WaitCooldown (fun _ => false) = (true, 0) :=
  (waitCooldown_spec (fun _ => false)).1 rfl

lemma auditLoop_verified_iff (digest : PyStr → Option PyStr) :
    ∀ l : Dict,
      (∀ p ∈ l, splitextExt p.1 ≠ ".pdb".data → (digest p.1).isSome) →
      (auditLoop digest l = .ok .verified ↔
        ∀ p ∈ l, splitextExt p.1 ≠ ".pdb".data → digest p.1 = some p.2) := by
  intro l
  induction l with
  | nil => intro _; simp [auditLoop]
  | cons p rest ih =>
    intro h
    obtain ⟨f, c⟩ := p
    have hrest := fun q hq => h q (List.mem_cons_of_mem _ hq)
    by_cases hp : splitextExt f = ".pdb".data
    · rw [show auditLoop digest ((f, c) :: rest) = auditLoop digest rest from
        by simp [auditLoop, hp]]
      rw [ih hrest]
      constructor
      · intro H q hq hnq
        rcases List.mem_cons.mp hq with hq | hq
        · subst hq; exact absurd hp hnq
        · exact H q hq hnq
      · intro H q hq hnq
        exact H q (List.mem_cons_of_mem _ hq) hnq
    · have hd := h (f, c) (List.mem_cons_self _ _) hp
      obtain ⟨d, hdeq⟩ := Option.isSome_iff_exists.mp hd
      by_cases hc : c = d
      · subst hc
        rw [show auditLoop digest ((f, c) :: rest) = auditLoop digest rest from
          by simp [auditLoop, hp, hdeq]]
        rw [ih hrest]
        constructor
        · intro H q hq hnq
          rcases List.mem_cons.mp hq with hq | hq
          · subst hq; exact hdeq
          · exact H q hq hnq
        · intro H q hq hnq
          exact H q (List.mem_cons_of_mem _ hq) hnq
      · rw [show auditLoop digest ((f, c) :: rest) =
            .ok (.mismatch f c d) from by simp [auditLoop, hp, hdeq, hc]]
        constructor
        · intro H; cases H
        · intro H
          have := H (f, c) (List.mem_cons_self _ _) hp
          rw [hdeq] at this
          exact absurd (Option.some_injective _ this).symm hc

lemma auditLoop_mismatch (digest : PyStr → Option PyStr) :
    ∀ (l : Dict) (f exp got : PyStr),
      auditLoop digest l = .ok (.mismatch f exp got) →
      ∃ pre post, l = pre ++ (f, exp) :: post ∧ digest f = some got ∧
        exp ≠ got ∧ splitextExt f ≠ ".pdb".data ∧
        ∀ q ∈ pre, splitextExt q.1 ≠ ".pdb".data → digest q.1 = some q.2 := by
  intro l
  induction l with
  | nil => intro f exp got h; simp [auditLoop] at h
  | cons p rest ih =>
    intro f exp got h
    obtain ⟨f2, c2⟩ := p
    by_cases hp : splitextExt f2 = ".pdb".data
    · rw [show auditLoop digest ((f2, c2) :: rest) = auditLoop digest rest from
        by simp [auditLoop, hp]] at h
      obtain ⟨pre, post, heq, hdig, hne, hnp, hpre⟩ := ih f exp got h
      refine ⟨(f2, c2) :: pre, post, by simp [heq], hdig, hne, hnp, ?_⟩
      intro q hq hnq
      rcases List.mem_cons.mp hq with hq | hq
      · subst hq; exact absurd hp hnq
      · exact hpre q hq hnq
    · cases hdeq : digest f2 with
      | none =>
        rw [show auditLoop digest ((f2, c2) :: rest) = .error () from
          by simp [auditLoop, hp, hdeq]] at h
        cases h
      | some d =>
        by_cases hc : c2 = d
        · subst hc
          rw [show auditLoop digest ((f2, c2) :: rest) = auditLoop digest rest
            from by simp [auditLoop, hp, hdeq]] at h
          obtain ⟨pre, post, heq, hdig, hne, hnp, hpre⟩ := ih f exp got h
          refine ⟨(f2, c2) :: pre, post, by simp [heq], hdig, hne, hnp, ?_⟩
          intro q hq hnq
          rcases List.mem_cons.mp hq with hq | hq
          · subst hq; exact hdeq
          · exact hpre q hq hnq
        · rw [show auditLoop digest ((f2, c2) :: rest) =
              .ok (.mismatch f2 c2 d) from by simp [auditLoop, hp, hdeq, hc]]
            at h
          obtain ⟨h1, h2, h3⟩ : f2 = f ∧ c2 = exp ∧ d = got := by
            cases h; exact ⟨rfl, rfl, rfl⟩
          subst h1; subst h2; subst h3
          exact ⟨[], rest, rfl, hdeq, hc, hp, by intro q hq; cases hq⟩

/-- C5: `_Audit` succeeds trivially when the checksum file is absent or
the loaded checksum set is empty; when every listed non-`.pdb` file is
readable it succeeds iff every such file's recomputed digest equals the
declared one; a mismatch outcome names a listed file together with its
declared and recomputed digests, every listed non-`.pdb` file before it
having verified (first mismatch); and the audit leaves the environment
unchanged. -/
theorem audit_spec :
    ∀ e : AuditEnv,
      (Audit e).2 = e ∧
      (e.checksumFile = none → (Audit e).1 = .ok .verified) ∧
      (LoadChecksum e = [] → (Audit e).1 = .ok .verified) ∧
      ((∀ p ∈ LoadChecksum e, splitextExt p.1 ≠ ".pdb".data →
          (e.digest p.1).isSome) →
        ((Audit e).1 = .ok .verified ↔
          ∀ p ∈ LoadChecksum e, splitextExt p.1 ≠ ".pdb".data →
            e.digest p.1 = some p.2)) ∧
      (∀ f exp got, (Audit e).1 = .ok (.mismatch f exp got) →
        ∃ pre post, LoadChecksum e = pre ++ (f, exp) :: post ∧
          e.digest f = some got ∧ exp ≠ got ∧
          splitextExt f ≠ ".pdb".data ∧
          ∀ q ∈ pre, splitextExt q.1 ≠ ".pdb".data →
            e.digest q.1 = some q.2) := by
  intro e
  refine ⟨?_, ?_, ?_, ?_, ?_⟩
  · simp only [Audit]; split <;> rfl
  · intro h
    simp [Audit, LoadChecksum, h]
  · intro h
    simp [Audit, h]
  · intro h
    by_cases he : LoadChecksum e = []
    · rw [show (Audit e).1 = .ok .verified from by simp [Audit, he]]
      simp [he]
    · rw [show (Audit e).1 = auditLoop e.digest (LoadChecksum e) from
        by simp [Audit, he]]
      exact auditLoop_verified_iff e.digest (LoadChecksum e) h
  · intro f exp got h
    by_cases he : LoadChecksum e = []
    · rw [show (Audit e).1 = .ok .verified from by simp [Audit, he]] at h
      cases h
    · rw [show (Audit e).1 = auditLoop e.digest (LoadChecksum e) from
        by simp [Audit, he]] at h
      exact auditLoop_mismatch e.digest (LoadChecksum e) f exp got h

theorem audit_spec_witness :
    (Audit ⟨none, fun _ => none⟩).1 = .ok .verified :=
  (audit_spec ⟨none, fun _ => none⟩).2.1 rfl

/-! ## String lemmas for the manifest round trip -/

/-- Left part of Python `strip()`. -/
def lstrip (s : PyStr) : PyStr := s.dropWhile isPySpace

/-- Right part of Python `strip()`. -/
def rstrip (s : PyStr) : PyStr := (s.reverse.dropWhile isPySpace).reverse

lemma pyStrip_eq_rstrip_lstrip (s : PyStr) : pyStrip s = rstrip (lstrip s) := rfl

/-- No `str.splitlines()` line-break character occurs in `s`. -/
def noBreak (s : PyStr) : Prop := ∀ c ∈ s, isLineBreak c = false

/-- `s.strip()` leaves `s` unchanged (no leading or trailing whitespace). -/
def stripInvariant (s : PyStr) : Prop := lstrip s = s ∧ rstrip s = s

/-- A key survives the `KEY=VALUE` round trip: no `=`, no line break, no
leading/trailing whitespace. -/
def goodKey (k : PyStr) : Prop := '=' ∉ k ∧ noBreak k ∧ stripInvariant k

instance (s : PyStr) : Decidable (noBreak s) := by unfold noBreak; infer_instance

instance (s : PyStr) : Decidable (stripInvariant s) := by
  unfold stripInvariant; infer_instance

instance (k : PyStr) : Decidable (goodKey k) := by unfold goodKey; infer_instance

lemma dropWhile_head_false (p : Char → Bool) :
    ∀ (s : PyStr) (c : Char) (t : PyStr), s.dropWhile p = c :: t → p c = false := by
  intro s
  induction s with
  | nil => intro c t h; cases h
  | cons a s ih =>
    intro c t h
    by_cases ha : p a
    · rw [List.dropWhile_cons, if_pos ha] at h
      exact ih c t h
    · rw [List.dropWhile_cons, if_neg ha] at h
      injection h with h1 _
      subst h1
      simpa using ha

lemma dropWhile_idem (p : Char → Bool) (s : PyStr) :
    (s.dropWhile p).dropWhile p = s.dropWhile p := by
  cases h : s.dropWhile p with
  | nil => simp
  | cons c t =>
    rw [List.dropWhile_cons, if_neg]
    simp [dropWhile_head_false p s c t h]

lemma mem_dropWhile (p : Char → Bool) :
    ∀ (s : PyStr) (c : Char), c ∈ s.dropWhile p → c ∈ s := by
  intro s
  induction s with
  | nil => intro c h; simpa using h
  | cons a s ih =>
    intro c h
    rw [List.dropWhile_cons] at h
    by_cases ha : p a
    · rw [if_pos ha] at h
      exact List.mem_cons_of_mem _ (ih c h)
    · rwa [if_neg ha] at h

lemma mem_lstrip (s : PyStr) (c : Char) (h : c ∈ lstrip s) : c ∈ s :=
  mem_dropWhile isPySpace s c h

lemma mem_rstrip (s : PyStr) (c : Char) (h : c ∈ rstrip s) : c ∈ s := by
  rw [rstrip, List.mem_reverse] at h
  exact List.mem_reverse.mp (mem_dropWhile isPySpace s.reverse c h)

lemma mem_pyStrip (s : PyStr) (c : Char) (h : c ∈ pyStrip s) : c ∈ s :=
  mem_lstrip s c (mem_rstrip (lstrip s) c (by rwa [pyStrip_eq_rstrip_lstrip] at h))

lemma lstrip_idem (s : PyStr) : lstrip (lstrip s) = lstrip s :=
  dropWhile_idem isPySpace s

lemma rstrip_idem (s : PyStr) : rstrip (rstrip s) = rstrip s := by
  unfold rstrip
  rw [List.reverse_reverse, dropWhile_idem]

lemma dropWhile_is_suffix (p : Char → Bool) :
    ∀ s : PyStr, ∃ t, t ++ s.dropWhile p = s := by
  intro s
  induction s with
  | nil => exact ⟨[], rfl⟩
  | cons a s ih =>
    by_cases ha : p a
    · obtain ⟨t, ht⟩ := ih
      exact ⟨a :: t, by rw [List.dropWhile_cons, if_pos ha]; simpa using ht⟩
    · exact ⟨[], by rw [List.dropWhile_cons, if_neg ha]; rfl⟩

lemma rstrip_is_prefix (s : PyStr) : ∃ t, rstrip s ++ t = s := by
  obtain ⟨t, ht⟩ := dropWhile_is_suffix isPySpace s.reverse
  refine ⟨t.reverse, ?_⟩
  have := congrArg List.reverse ht
  simpa [rstrip] using this

lemma lstripInv_rstrip (s : PyStr) (h : lstrip s = s) :
    lstrip (rstrip s) = rstrip s := by
  cases hr : rstrip s with
  | nil => rfl
  | cons d u =>
    obtain ⟨t, ht⟩ := rstrip_is_prefix s
    rw [hr] at ht
    have hd : isPySpace d = false := by
      rw [← ht] at h
      by_cases hd : isPySpace d
      · rw [lstrip, List.cons_append, List.dropWhile_cons, if_pos hd] at h
        have hlen := congrArg List.length h
        have hle : ((u ++ t).dropWhile isPySpace).length ≤ (u ++ t).length :=
          List.Sublist.length_le (List.dropWhile_sublist isPySpace)
        simp [List.length_append] at hlen hle
        omega
      · simpa using hd
    rw [lstrip, List.dropWhile_cons, if_neg (by simp [hd])]

lemma stripInvariant_pyStrip (s : PyStr) : stripInvariant (pyStrip s) := by
  constructor
  · rw [pyStrip_eq_rstrip_lstrip]
    exact lstripInv_rstrip (lstrip s) (lstrip_idem s)
  · rw [pyStrip_eq_rstrip_lstrip]
    exact rstrip_idem (lstrip s)

lemma pyStrip_of_stripInvariant (s : PyStr) (h : stripInvariant s) :
    pyStrip s = s := by
  rw [pyStrip_eq_rstrip_lstrip, h.1, h.2]

lemma dropWhile_append_stop (p : Char → Bool) (y : Char) (h : p y = false)
    (zs : PyStr) : ∀ xs : PyStr,
    List.dropWhile p (xs ++ y :: zs) = List.dropWhile p xs ++ y :: zs := by
  intro xs
  induction xs with
  | nil => simp [List.dropWhile_cons, h]
  | cons a xs ih =>
    by_cases ha : p a <;>
      simp [List.dropWhile_cons, ha, ih]

lemma lstrip_key_line (k v : PyStr) (hk : lstrip k = k) :
    lstrip (k ++ '=' :: v) = k ++ '=' :: v := by
  cases k with
  | nil => simp [lstrip, List.dropWhile_cons, show isPySpace '=' = false from rfl]
  | cons c t =>
    have hc : isPySpace c = false := dropWhile_head_false isPySpace (c :: t) c t hk
    simp [lstrip, List.dropWhile_cons, hc]

lemma rstrip_key_line (k v : PyStr) :
    rstrip (k ++ '=' :: v) = k ++ '=' :: rstrip v := by
  unfold rstrip
  have h1 : (k ++ '=' :: v).reverse = v.reverse ++ '=' :: k.reverse := by simp
  rw [h1, dropWhile_append_stop isPySpace '=' rfl k.reverse v.reverse]
  simp

lemma pyStrip_key_line (k v : PyStr) (hk : lstrip k = k) :
    pyStrip (k ++ '=' :: v) = k ++ '=' :: rstrip v := by
  rw [pyStrip_eq_rstrip_lstrip, lstrip_key_line k v hk, rstrip_key_line]

lemma splitOnce_of_append (sep : Char) :
    ∀ (k v : PyStr), sep ∉ k → splitOnce sep (k ++ sep :: v) = some (k, v) := by
  intro k
  induction k with
  | nil => intro v _; simp [splitOnce]
  | cons c t ih =>
    intro v h
    have hc : ¬ c = sep := fun e => h (by simp [e])
    have hrec := ih v (fun hm => h (List.mem_cons_of_mem _ hm))
    simp only [List.cons_append, splitOnce, if_neg hc, List.append_eq]
    rw [hrec]
    rfl

lemma splitOnce_eq_some (sep : Char) :
    ∀ (s a b : PyStr), splitOnce sep s = some (a, b) →
      s = a ++ sep :: b ∧ sep ∉ a := by
  intro s
  induction s with
  | nil => intro a b h; cases h
  | cons c t ih =>
    intro a b h
    by_cases hc : c = sep
    · rw [show splitOnce sep (c :: t) = some ([], t) from by
        simp [splitOnce, hc]] at h
      injection h with h3
      have ha : a = [] := (congrArg Prod.fst h3).symm
      have hb : b = t := (congrArg Prod.snd h3).symm
      subst ha; subst hb
      exact ⟨by simp [hc], List.not_mem_nil _⟩
    · simp only [splitOnce, if_neg hc, Option.map_eq_some'] at h
      obtain ⟨⟨a2, b2⟩, hs, heq⟩ := h
      obtain ⟨h1, h2⟩ := ih a2 b2 hs
      have ha : a = c :: a2 := (congrArg Prod.fst heq).symm
      have hb : b = b2 := (congrArg Prod.snd heq).symm
      subst ha; subst hb
      constructor
      · rw [h1]; rfl
      · intro hm
        rcases List.mem_cons.mp hm with hm | hm
        · exact hc hm.symm
        · exact h2 hm

/-! ## Dict lemmas -/

lemma dictGet_mem (k : PyStr) :
    ∀ (d : Dict) (v : PyStr), dictGet k d = some v → (k, v) ∈ d := by
  intro d
  induction d with
  | nil => intro v h; cases h
  | cons p rest ih =>
    intro v h
    obtain ⟨k2, v2⟩ := p
    by_cases hk : k2 = k
    · rw [dictGet, if_pos hk] at h
      injection h with h2
      subst hk; subst h2
      exact List.mem_cons_self _ _
    · rw [dictGet, if_neg hk] at h
      exact List.mem_cons_of_mem _ (ih v h)

lemma dictInsert_mem (k v : PyStr) :
    ∀ (d : Dict) (q : PyStr × PyStr), q ∈ dictInsert k v d →
      q ∈ d ∨ (q.1 = k ∧ q.2 = v) := by
  intro d
  induction d with
  | nil =>
    intro q h
    rw [dictInsert] at h
    rcases List.mem_cons.mp h with h | h
    · subst h; exact Or.inr ⟨rfl, rfl⟩
    · cases h
  | cons p rest ih =>
    intro q h
    obtain ⟨k2, v2⟩ := p
    by_cases hk : k2 = k
    · rw [dictInsert, if_pos hk] at h
      rcases List.mem_cons.mp h with h | h
      · subst h; exact Or.inr ⟨hk, rfl⟩
      · exact Or.inl (List.mem_cons_of_mem _ h)
    · rw [dictInsert, if_neg hk] at h
      rcases List.mem_cons.mp h with h | h
      · subst h; exact Or.inl (List.mem_cons_self _ _)
      · rcases ih q h with h2 | h2
        · exact Or.inl (List.mem_cons_of_mem _ h2)
        · exact Or.inr h2

lemma dictInsert_of_not_mem (k v : PyStr) :
    ∀ d : Dict, (∀ q ∈ d, q.1 ≠ k) → dictInsert k v d = d ++ [(k, v)] := by
  intro d
  induction d with
  | nil => intro _; rfl
  | cons p rest ih =>
    intro h
    obtain ⟨k2, v2⟩ := p
    have hk : k2 ≠ k := h (k2, v2) (List.mem_cons_self _ _)
    rw [dictInsert, if_neg hk, ih (fun q hq => h q (List.mem_cons_of_mem _ hq))]
    rfl

lemma dictInsert_keys (k v : PyStr) :
    ∀ d : Dict, (dictInsert k v d).map Prod.fst =
      if k ∈ d.map Prod.fst then d.map Prod.fst
      else d.map Prod.fst ++ [k] := by
  intro d
  induction d with
  | nil => simp [dictInsert]
  | cons p rest ih =>
    obtain ⟨k2, v2⟩ := p
    by_cases hk : k2 = k
    · subst hk
      simp [dictInsert]
    · rw [dictInsert, if_neg hk]
      by_cases hm : k ∈ rest.map Prod.fst
      · simp only [List.map_cons, ih, if_pos hm]
        rw [if_pos]
        exact List.mem_cons_of_mem _ hm
      · simp only [List.map_cons, ih, if_neg hm]
        rw [if_neg]
        · rfl
        · intro hc
          rcases List.mem_cons.mp hc with hc | hc
          · exact hk hc.symm
          · exact hm hc

lemma dictInsert_keys_nodup (k v : PyStr) (d : Dict)
    (h : (d.map Prod.fst).Nodup) :
    ((dictInsert k v d).map Prod.fst).Nodup := by
  rw [dictInsert_keys]
  by_cases hm : k ∈ d.map Prod.fst
  · rwa [if_pos hm]
  · rw [if_neg hm]
    simp [List.nodup_append, h, hm]

lemma dictGet_dictInsert_ne (k k2 v : PyStr) (h : k ≠ k2) :
    ∀ d : Dict, dictGet k (dictInsert k2 v d) = dictGet k d := by
  intro d
  induction d with
  | nil =>
    have h2 : ¬ k2 = k := fun e => h e.symm
    simp [dictInsert, dictGet, h2]
  | cons p rest ih =>
    obtain ⟨k3, v3⟩ := p
    by_cases hk : k3 = k2
    · rw [dictInsert, if_pos hk]
      have hk3 : k3 ≠ k := fun e => h (e.symm.trans hk)
      rw [dictGet, if_neg hk3, dictGet, if_neg hk3]
    · rw [dictInsert, if_neg hk]
      by_cases hk3 : k3 = k
      · rw [dictGet, if_pos hk3, dictGet, if_pos hk3]
      · rw [dictGet, if_neg hk3, dictGet, if_neg hk3, ih]

lemma dictGet_map_values (g : PyStr → PyStr) (k : PyStr) :
    ∀ d : Dict, dictGet k (d.map (fun p => (p.1, g p.2))) =
      (dictGet k d).map g := by
  intro d
  induction d with
  | nil => rfl
  | cons p rest ih =>
    obtain ⟨k2, v2⟩ := p
    by_cases hk : k2 = k
    · simp only [List.map_cons, dictGet, if_pos hk]
      rfl
    · simp only [List.map_cons, dictGet, if_neg hk, ih]

/-! ## Writing then parsing a manifest -/

lemma foldr_slStep_noBreak (l : PyStr) (hl : noBreak l)
    (R : List PyStr) (f : Bool) :
    l.foldr slStep (R, f) =
      (l.foldr consLine R, l.head?.elim f (fun c => c = '\n')) := by
  induction l with
  | nil => simp
  | cons c cs ih =>
    have hc : isLineBreak c = false := hl c (List.mem_cons_self _ _)
    have hcr : c ≠ '\r' := by intro h; subst h; simp [isLineBreak] at hc
    have hcn : (c = '\n') = False := by
      simp only [eq_iff_iff, iff_false]
      intro h; subst h; simp [isLineBreak] at hc
    simp only [List.foldr_cons,
      ih (fun d hd => hl d (List.mem_cons_of_mem _ hd)),
      slStep, hc, if_neg hcr, if_false]
    simp [hcn]

lemma pySplitlines_line_append (l rest : PyStr) (hl : noBreak l) :
    pySplitlines (l ++ '\n' :: rest) = l :: pySplitlines rest := by
  unfold pySplitlines
  rw [List.foldr_append]
  simp only [List.foldr_cons]
  rw [show slStep '\n' (rest.foldr slStep ([], false)) =
    ([] :: (rest.foldr slStep ([], false)).1, true) from by
      simp [slStep, isLineBreak]]
  rw [foldr_slStep_noBreak l hl]
  induction l with
  | nil => simp
  | cons c cs ih =>
    have hrec := ih (fun d hd => hl d (List.mem_cons_of_mem _ hd))
    simp only [List.foldr_cons]
    rw [show cs.foldr consLine ([] :: (rest.foldr slStep ([], false)).1) =
      cs :: (rest.foldr slStep ([], false)).1 from hrec]
    simp [consLine]

lemma pySplitlines_noBreak (s : PyStr) :
    ∀ l ∈ pySplitlines s, noBreak l := by
  have main : ∀ s : PyStr, (∀ l ∈ (s.foldr slStep ([], false)).1, noBreak l) := by
    intro s
    induction s with
    | nil => intro l hl; cases hl
    | cons c cs ih =>
      intro l hl
      simp only [List.foldr_cons, slStep] at hl
      by_cases hc1 : c = '\r'
      · rw [if_pos hc1] at hl
        by_cases hf : (cs.foldr slStep ([], false)).2
        · rw [if_pos hf] at hl
          exact ih l hl
        · rw [if_neg hf] at hl
          rcases List.mem_cons.mp hl with h | h
          · subst h; intro d hd; cases hd
          · exact ih l h
      · rw [if_neg hc1] at hl
        by_cases hc2 : isLineBreak c
        · rw [if_pos hc2] at hl
          rcases List.mem_cons.mp hl with h | h
          · subst h; intro d hd; cases hd
          · exact ih l h
        · rw [if_neg hc2] at hl
          rcases hacc : (cs.foldr slStep ([], false)).1 with _ | ⟨l2, ls⟩
          · rw [hacc, consLine] at hl
            rcases List.mem_cons.mp hl with h | h
            · subst h
              intro d hd
              rcases List.mem_cons.mp hd with h2 | h2
              · subst h2; simpa using hc2
              · cases h2
            · cases h
          · rw [hacc, consLine] at hl
            rcases List.mem_cons.mp hl with h | h
            · subst h
              intro d hd
              rcases List.mem_cons.mp hd with h2 | h2
              · subst h2; simpa using hc2
              · exact ih l2 (by rw [hacc]; exact List.mem_cons_self _ _) d h2
            · exact ih l (by rw [hacc]; exact List.mem_cons_of_mem _ h)
  exact main s

lemma pySplitlines_manifestContents (m : Dict)
    (h : ∀ p ∈ m, noBreak p.1 ∧ noBreak p.2) :
    pySplitlines (manifestContents m) =
      m.map (fun p => p.1 ++ '=' :: p.2) := by
  induction m with
  | nil => rfl
  | cons p rest ih =>
    obtain ⟨k, v⟩ := p
    have hk := (h (k, v) (List.mem_cons_self _ _)).1
    have hv := (h (k, v) (List.mem_cons_self _ _)).2
    have hline : noBreak (k ++ '=' :: v) := by
      intro c hc
      rcases List.mem_append.mp hc with hc | hc
      · exact hk c hc
      · rcases List.mem_cons.mp hc with hc | hc
        · subst hc; rfl
        · exact hv c hc
    have hassoc : manifestContents ((k, v) :: rest) =
        (k ++ '=' :: v) ++ '\n' :: manifestContents rest := by
      simp [manifestContents]
    rw [hassoc, pySplitlines_line_append _ _ hline,
      ih (fun q hq => h q (List.mem_cons_of_mem _ hq))]
    rfl

lemma parseStep_good_line (out : Dict) (k v : PyStr) (hk : goodKey k) :
    parseStep out (k ++ '=' :: v) =
      dictInsert k (pyStrip (rstrip v)) out := by
  unfold parseStep
  rw [pyStrip_key_line k v hk.2.2.1,
    splitOnce_of_append '=' k (rstrip v) hk.1]
  show dictInsert (pyStrip k) (pyStrip (rstrip v)) out =
    dictInsert k (pyStrip (rstrip v)) out
  rw [pyStrip_of_stripInvariant k hk.2.2]

lemma foldl_parseStep_good :
    ∀ (m : Dict) (acc : Dict), (∀ p ∈ m, goodKey p.1) →
      (m.map (fun p => p.1 ++ '=' :: p.2)).foldl parseStep acc =
        m.foldl (fun out p => dictInsert p.1 (pyStrip (rstrip p.2)) out) acc := by
  intro m
  induction m with
  | nil => intro acc _; rfl
  | cons p rest ih =>
    intro acc h
    obtain ⟨k, v⟩ := p
    simp only [List.map_cons, List.foldl_cons]
    rw [parseStep_good_line acc k v (h (k, v) (List.mem_cons_self _ _))]
    exact ih _ (fun q hq => h q (List.mem_cons_of_mem _ hq))

lemma foldl_dictInsert_nodup :
    ∀ (m acc : Dict), (∀ p ∈ m, ∀ q ∈ acc, q.1 ≠ p.1) →
      (m.map Prod.fst).Nodup →
      m.foldl (fun out p => dictInsert p.1 (pyStrip (rstrip p.2)) out) acc =
        acc ++ m.map (fun p => (p.1, pyStrip (rstrip p.2))) := by
  intro m
  induction m with
  | nil => intro acc _ _; simp
  | cons p rest ih =>
    intro acc hdisj hnd
    obtain ⟨k, v⟩ := p
    simp only [List.foldl_cons]
    rw [dictInsert_of_not_mem k (pyStrip (rstrip v)) acc
      (fun q hq => hdisj (k, v) (List.mem_cons_self _ _) q hq)]
    rw [ih (acc ++ [(k, pyStrip (rstrip v))]) ?hdisj2 ?hnd2]
    · simp
    case hdisj2 =>
      intro p2 hp2 q hq
      rcases List.mem_append.mp hq with hq | hq
      · exact hdisj p2 (List.mem_cons_of_mem _ hp2) q hq
      · rcases List.mem_cons.mp hq with hq | hq
        · subst hq
          simp only [List.map_cons, List.nodup_cons] at hnd
          intro e
          apply hnd.1
          have hmem : p2.1 ∈ List.map Prod.fst rest :=
            List.mem_map_of_mem Prod.fst hp2
          rwa [← e] at hmem
        · cases hq
    case hnd2 =>
      simp only [List.map_cons, List.nodup_cons] at hnd
      exact hnd.2

/-- Writing a mapping whose keys are round-trip-clean and whose values
contain no line break, then parsing the file back, yields the same
mapping with each value right- and fully-stripped. -/
lemma parse_manifestContents (m : Dict)
    (hk : ∀ p ∈ m, goodKey p.1) (hv : ∀ p ∈ m, noBreak p.2)
    (hnd : (m.map Prod.fst).Nodup) :
    ParseManifestContents (manifestContents m) =
      m.map (fun p => (p.1, pyStrip (rstrip p.2))) := by
  unfold ParseManifestContents
  rw [pySplitlines_manifestContents m
    (fun p hp => ⟨(hk p hp).2.1, hv p hp⟩)]
  rw [foldl_parseStep_good m [] hk]
  rw [foldl_dictInsert_nodup m [] (by intro p _ q hq; cases hq) hnd]
  rfl

/-- C3 counterexample: the mapping `{"a=b": "c"}` has no newline in any
key or value, yet writing it with `WriteManifest` and reading it back
yields `{"a": "b=c"}`, because parsing splits on the first `=` of the
written line `a=b=c`. -/
theorem manifest_roundtrip_counterexample :
    (∀ c ∈ "a=b".data, c ≠ '\n') ∧ (∀ c ∈ "c".data, c ≠ '\n') ∧
    ParseManifestContents (manifestContents [("a=b".data, "c".data)]) =
      [("a".data, "b=c".data)] ∧
    ParseManifestContents (manifestContents [("a=b".data, "c".data)]) ≠
      [("a=b".data, "c".data)] := by decide

/-- C3 (amended): for every mapping whose keys contain no `=`, whose
keys and values contain no line-break character and carry no leading or
trailing whitespace (Python `strip()` leaves them unchanged), and whose
keys are distinct, writing with `WriteManifest` and reading back with
`ReadManifest` is the identity. -/
theorem manifest_roundtrip (m : Dict)
    (h : ∀ p ∈ m, goodKey p.1 ∧ noBreak p.2 ∧ stripInvariant p.2)
    (hnd : (m.map Prod.fst).Nodup) :
    ParseManifestContents (manifestContents m) = m := by
  rw [parse_manifestContents m (fun p hp => (h p hp).1)
    (fun p hp => (h p hp).2.1) hnd]
  rw [show m.map (fun p => (p.1, pyStrip (rstrip p.2))) = m.map id from
    List.map_congr_left ?_]
  · exact List.map_id m
  · intro p hp
    have hsi := (h p hp).2.2
    simp only [id]
    rw [hsi.2, pyStrip_of_stripInvariant p.2 hsi]

theorem manifest_roundtrip_witness :
    ParseManifestContents (manifestContents
      [("VERSION".data, "68".data), ("PLATFORM".data, "linux".data)]) =
      [("VERSION".data, "68".data), ("PLATFORM".data, "linux".data)] :=
  manifest_roundtrip _ (by decide) (by decide)

/-! ## Properties of parser output (used for the update invariant) -/

/-- Entries a manifest parse can produce: clean keys, stripped values,
no line breaks. -/
def parsedEntry (p : PyStr × PyStr) : Prop :=
  goodKey p.1 ∧ noBreak p.2 ∧ stripInvariant p.2

lemma parseStep_parsedEntry (out : Dict) (line : PyStr)
    (hline : noBreak line)
    (hout : ∀ p ∈ out, parsedEntry p) :
    ∀ p ∈ parseStep out line, parsedEntry p := by
  intro p hp
  unfold parseStep at hp
  cases hsp : splitOnce '=' (pyStrip line) with
  | none => rw [hsp] at hp; exact hout p hp
  | some q =>
    rw [hsp] at hp
    rcases dictInsert_mem _ _ out p hp with hm | hm
    · exact hout p hm
    · obtain ⟨a, b⟩ := q
      obtain ⟨heq, hnin⟩ := splitOnce_eq_some '=' (pyStrip line) a b hsp
      have hmemA : ∀ c ∈ a, c ∈ line := by
        intro c hc
        exact mem_pyStrip line c (heq ▸ List.mem_append_left _ hc)
      have hmemB : ∀ c ∈ b, c ∈ line := by
        intro c hc
        exact mem_pyStrip line c
          (heq ▸ List.mem_append_right _ (List.mem_cons_of_mem _ hc))
      refine ⟨?_, ?_, ?_⟩
      · rw [hm.1]
        refine ⟨?_, ?_, stripInvariant_pyStrip a⟩
        · intro hc
          exact hnin (mem_pyStrip a '=' hc)
        · intro c hc
          exact hline c (hmemA c (mem_pyStrip a c hc))
      · rw [hm.2]
        intro c hc
        exact hline c (hmemB c (mem_pyStrip b c hc))
      · rw [hm.2]
        exact stripInvariant_pyStrip b

lemma foldl_parseStep_parsedEntry :
    ∀ (lines : List PyStr) (acc : Dict),
      (∀ l ∈ lines, noBreak l) → (∀ p ∈ acc, parsedEntry p) →
      ∀ p ∈ lines.foldl parseStep acc, parsedEntry p := by
  intro lines
  induction lines with
  | nil => intro acc _ hacc; exact hacc
  | cons l rest ih =>
    intro acc hlines hacc
    exact ih (parseStep acc l)
      (fun l2 hl2 => hlines l2 (List.mem_cons_of_mem _ hl2))
      (parseStep_parsedEntry acc l (hlines l (List.mem_cons_self _ _)) hacc)

lemma parse_parsedEntry (s : PyStr) :
    ∀ p ∈ ParseManifestContents s, parsedEntry p :=
  foldl_parseStep_parsedEntry (pySplitlines s) []
    (pySplitlines_noBreak s) (by intro p hp; cases hp)

lemma foldl_parseStep_keys_nodup :
    ∀ (lines : List PyStr) (acc : Dict),
      (acc.map Prod.fst).Nodup →
      ((lines.foldl parseStep acc).map Prod.fst).Nodup := by
  intro lines
  induction lines with
  | nil => intro acc h; exact h
  | cons l rest ih =>
    intro acc h
    refine ih (parseStep acc l) ?_
    unfold parseStep
    cases splitOnce '=' (pyStrip l) with
    | none => exact h
    | some q => exact dictInsert_keys_nodup _ _ acc h

lemma parse_keys_nodup (s : PyStr) :
    ((ParseManifestContents s).map Prod.fst).Nodup :=
  foldl_parseStep_keys_nodup (pySplitlines s) [] List.nodup_nil

lemma readManifest_parsedEntry (f : Option PyStr) :
    ∀ p ∈ ReadManifest f, parsedEntry p := by
  cases f with
  | none => intro p hp; cases hp
  | some s => exact parse_parsedEntry s

lemma readManifest_keys_nodup (f : Option PyStr) :
    ((ReadManifest f).map Prod.fst).Nodup := by
  cases f with
  | none => exact List.nodup_nil
  | some s => exact parse_keys_nodup s

/-! ## The update version invariant -/

lemma shouldUpdate_backward (cur v : Int) (bad : PyStr)
    (h : ShouldUpdate cur v bad = true) (hlt : v < cur) :
    IsBadVersion cur bad = true := by
  unfold ShouldUpdate at h
  rwa [if_neg (by omega : ¬ cur < v), if_neg (by omega : ¬ cur = v)] at h

/-- If an update from `cur` to `latest` is wanted but one from `v` to
`latest` is not, then an update from `cur` to `v` is wanted: the staged
version a skipped pull leaves behind is itself acceptable. -/
lemma shouldUpdate_trans (cur latest v : Int) (bad : PyStr)
    (h1 : ShouldUpdate cur latest bad = true)
    (h2 : ShouldUpdate v latest bad = false) :
    ShouldUpdate cur v bad = true := by
  unfold ShouldUpdate at h1 h2 ⊢
  by_cases hvl : v < latest
  · rw [if_pos hvl] at h2; cases h2
  · rw [if_neg hvl] at h2
    by_cases hveq : v = latest
    · rw [if_pos hveq] at h2
      subst hveq
      exact h1
    · rw [if_neg hveq] at h2
      by_cases hcl : cur < latest
      · have hcv : cur < v := by omega
        rw [if_pos hcv]
      · rw [if_neg hcl] at h1
        by_cases hce : cur = latest
        · rw [if_pos hce] at h1; cases h1
        · rw [if_neg hce] at h1
          by_cases hcv : cur < v
          · rw [if_pos hcv]
          · by_cases hcve : cur = v
            · rw [hcve] at h1
              rw [h1] at h2
              cases h2
            · rw [if_neg hcv, if_neg hcve]
              exact h1

lemma dictGet_parse_write (d : Dict)
    (hk : ∀ p ∈ d, goodKey p.1) (hv : ∀ p ∈ d, noBreak p.2)
    (hnd : (d.map Prod.fst).Nodup) (k : PyStr) :
    dictGet k (ParseManifestContents (manifestContents d)) =
      (dictGet k d).map (fun v => pyStrip (rstrip v)) := by
  rw [parse_manifestContents d hk hv hnd]
  exact dictGet_map_values (fun v => pyStrip (rstrip v)) k d

lemma updatePackage_eq (staged : Option PyStr) (env : UpdateEnv)
    (vv : PyStr) (n : Int)
    (h1 : dictGet "VERSION".data (ReadManifest staged) = some vv)
    (h2 : pyInt vv = some n) :
    UpdatePackage staged env =
      if !env.extractOk then .error ()
      else if !env.auditOk then .error ()
      else if !env.installOk then .error () else .ok n := by
  unfold UpdatePackage
  rw [h1]
  dsimp only
  rw [h2]

/-- C7: whenever an `update` run installs a version `v` (the only
assumption being that the detected platform string contains no line
break), `_ShouldUpdate(current, v, bad_version)` holds for the remote
denylist — so in particular the installed version can only decrease
when the current version is denylisted. -/
theorem update_version_monotonic (curVer : Int) (env : UpdateEnv) (v : Int)
    (hplat : noBreak env.platform)
    (h : UpdateStep curVer env = some v) :
    ∃ latest bad, GetLatestVersion env.remoteContents = .ok (latest, bad) ∧
      ShouldUpdate curVer v bad = true ∧
      (v < curVer → IsBadVersion curVer bad = true) := by
  unfold UpdateStep at h
  cases hgl : GetLatestVersion env.remoteContents with
  | error e => rw [hgl] at h; cases h
  | ok lb =>
    obtain ⟨latest, bad⟩ := lb
    rw [hgl] at h
    dsimp only at h
    by_cases hsu : ShouldUpdate curVer latest bad = true
    case neg => rw [if_neg hsu] at h; cases h
    rw [if_pos hsu] at h
    have hglx := hgl
    unfold GetLatestVersion at hglx
    dsimp only at hglx
    cases hvr : dictGet "VERSION".data (ParseManifestContents env.remoteContents) with
    | none => rw [hvr] at hglx; cases hglx
    | some vv =>
      rw [hvr] at hglx
      dsimp only at hglx
      cases hpi : pyInt vv with
      | none => rw [hpi] at hglx; cases hglx
      | some n =>
        rw [hpi] at hglx
        dsimp only at hglx
        injection hglx with hglx2
        have hn : latest = n := (congrArg Prod.fst hglx2).symm
        subst hn
        have hvvprops := parse_parsedEntry env.remoteContents _
          (dictGet_mem _ (ParseManifestContents env.remoteContents) vv hvr)
        have hvvstrip : pyStrip (rstrip vv) = vv := by
          rw [hvvprops.2.2.2]
          exact pyStrip_of_stripInvariant vv hvvprops.2.2
        by_cases hA : (ShouldUpdate (DownloadedVersion env.staged) latest bad
            || !ValidFiles env) = true
        · -- download path: the staged manifest becomes the fetched one,
          -- stamped with PLATFORM
          have hPull : Pull curVer env = .ok (some (manifestContents
              (dictInsert "PLATFORM".data env.platform
                (ParseManifestContents env.remoteContents)))) := by
            unfold Pull
            rw [hgl]
            dsimp only
            rw [hA, hsu]
            rfl
          rw [hPull] at h
          dsimp only at h
          have hdk : ∀ p ∈ dictInsert "PLATFORM".data env.platform
              (ParseManifestContents env.remoteContents), goodKey p.1 := by
            intro p hp
            rcases dictInsert_mem _ _ _ p hp with hm | hm
            · exact (parse_parsedEntry env.remoteContents p hm).1
            · rw [hm.1]; decide
          have hdv : ∀ p ∈ dictInsert "PLATFORM".data env.platform
              (ParseManifestContents env.remoteContents), noBreak p.2 := by
            intro p hp
            rcases dictInsert_mem _ _ _ p hp with hm | hm
            · exact (parse_parsedEntry env.remoteContents p hm).2.1
            · rw [hm.2]; exact hplat
          have hdnd := dictInsert_keys_nodup "PLATFORM".data env.platform
            (ParseManifestContents env.remoteContents)
            (parse_keys_nodup env.remoteContents)
          have hgetd : dictGet "VERSION".data (ReadManifest (some (manifestContents
              (dictInsert "PLATFORM".data env.platform
                (ParseManifestContents env.remoteContents))))) = some vv := by
            show dictGet "VERSION".data (ParseManifestContents (manifestContents
              (dictInsert "PLATFORM".data env.platform
                (ParseManifestContents env.remoteContents)))) = some vv
            rw [dictGet_parse_write _ hdk hdv hdnd,
              dictGet_dictInsert_ne _ _ _ (by decide) _, hvr]
            dsimp only [Option.map]
            rw [hvvstrip]
          have hup := updatePackage_eq _ env vv latest hgetd hpi
          rw [hup] at h
          cases hext : env.extractOk with
          | false => simp [hext] at h
          | true =>
            cases haud : env.auditOk with
            | false => simp [hext, haud] at h
            | true =>
              cases hins : env.installOk with
              | false => simp [hext, haud, hins] at h
              | true =>
                simp [hext, haud, hins] at h
                subst h
                exact ⟨latest, bad, rfl, hsu,
                  fun hlt => shouldUpdate_backward curVer latest bad hsu hlt⟩
        · -- skip path: the staged manifest is rewritten unchanged
          have hA2 : (ShouldUpdate (DownloadedVersion env.staged) latest bad
              || !ValidFiles env) = false := by
            revert hA
            cases (ShouldUpdate (DownloadedVersion env.staged) latest bad
              || !ValidFiles env) <;> simp
          have hAd : ShouldUpdate (DownloadedVersion env.staged) latest bad
              = false := (Bool.or_eq_false_iff.mp hA2).1
          have hVF : ValidFiles env = true := by
            have h2 := (Bool.or_eq_false_iff.mp hA2).2
            revert h2
            cases (ValidFiles env) <;> simp
          have hIVM : IsValidManifest env.staged = true := by
            unfold ValidFiles at hVF
            cases hb : IsValidManifest env.staged with
            | false => rw [hb] at hVF; simp at hVF
            | true => rfl
          have hPull : Pull curVer env = .ok (some (manifestContents
              (ReadManifest env.staged))) := by
            unfold Pull
            rw [hgl]
            dsimp only
            rw [hA2, hIVM]
            rfl
          rw [hPull] at h
          dsimp only at h
          have hr0k : ∀ p ∈ ReadManifest env.staged, goodKey p.1 :=
            fun p hp => (readManifest_parsedEntry env.staged p hp).1
          have hr0v : ∀ p ∈ ReadManifest env.staged, noBreak p.2 :=
            fun p hp => (readManifest_parsedEntry env.staged p hp).2.1
          have hr0nd := readManifest_keys_nodup env.staged
          have hget0 : dictGet "VERSION".data (ReadManifest (some (manifestContents
              (ReadManifest env.staged)))) =
              (dictGet "VERSION".data (ReadManifest env.staged)).map
                (fun v2 => pyStrip (rstrip v2)) := by
            show dictGet "VERSION".data (ParseManifestContents (manifestContents
              (ReadManifest env.staged))) = _
            exact dictGet_parse_write _ hr0k hr0v hr0nd _
          cases hv0 : dictGet "VERSION".data (ReadManifest env.staged) with
          | none =>
            have herr : UpdatePackage (some (manifestContents
                (ReadManifest env.staged))) env = .error () := by
              unfold UpdatePackage
              rw [hget0, hv0]
              rfl
            rw [herr] at h
            cases h
          | some v0 =>
            have hv0props := readManifest_parsedEntry env.staged _
              (dictGet_mem _ (ReadManifest env.staged) v0 hv0)
            have hv0strip : pyStrip (rstrip v0) = v0 := by
              rw [hv0props.2.2.2]
              exact pyStrip_of_stripInvariant v0 hv0props.2.2
            have hget1 : dictGet "VERSION".data (ReadManifest (some (manifestContents
                (ReadManifest env.staged)))) = some v0 := by
              rw [hget0, hv0]
              dsimp only [Option.map]
              rw [hv0strip]
            cases hpi0 : pyInt v0 with
            | none =>
              have herr : UpdatePackage (some (manifestContents
                  (ReadManifest env.staged))) env = .error () := by
                unfold UpdatePackage
                rw [hget1]
                dsimp only
                rw [hpi0]
              rw [herr] at h
              cases h
            | some n0 =>
              have hup := updatePackage_eq _ env v0 n0 hget1 hpi0
              rw [hup] at h
              have hdvn : DownloadedVersion env.staged = n0 := by
                unfold DownloadedVersion
                rw [hv0]
                dsimp only
                rw [hpi0]
              cases hext : env.extractOk with
              | false => simp [hext] at h
              | true =>
                cases haud : env.auditOk with
                | false => simp [hext, haud] at h
                | true =>
                  cases hins : env.installOk with
                  | false => simp [hext, haud, hins] at h
                  | true =>
                    simp [hext, haud, hins] at h
                    subst h
                    rw [hdvn] at hAd
                    have htr := shouldUpdate_trans curVer latest n0 bad hsu hAd
                    exact ⟨latest, bad, rfl, htr,
                      fun hlt => shouldUpdate_backward curVer n0 bad htr hlt⟩

theorem update_version_monotonic_witness :
    ∃ latest bad,
      GetLatestVersion ("VERSION=2".data) = .ok (latest, bad) ∧
      ShouldUpdate 1 2 bad = true ∧
      (2 < (1 : Int) → IsBadVersion 1 bad = true) :=
  update_version_monotonic 1
    ⟨"VERSION=2".data, none, "linux".data, true, true, true, true⟩ 2
    (by decide) (by decide)
